import Mathlib

/-!
Shallow embedding of the index reduction engine of conda-subchannel
(src/conda_subchannel/core.py and src/conda_subchannel/cli.py), together
with theorems settling the specification claims about it.

The reduction engine operates on conda PackageRecord values grouped per
SubdirData (one platform partition each) and is driven by MatchSpec
filters.  PackageRecord and MatchSpec come from the external conda
library; they are modelled here by a concrete record type and a concrete
name-plus-exact-version spec type that realises the narrow interface the
engine uses (parse a dependency string, read the spec name, match a
record).  Conda stores a missing repodata timestamp as 0 (TimestampField
declares default 0), so the record model carries an optional timestamp
whose effective value defaults to 0.
-/

namespace CondaSubchannel

/-- Model of conda PackageRecord as consumed by core.py: package name,
version string, filename, raw dependency strings, and the optional
repodata timestamp (conda TimestampField defaults to 0 when absent). -/
structure PRecord where
  name : String
  version : String
  fn : String
  depends : List String
  timestamp : Option Int := none
deriving DecidableEq

/-- Effective timestamp of a record: conda TimestampField stores 0 when
the repodata entry has no timestamp. -/
def tsOf (r : PRecord) : Int :=
  r.timestamp.getD 0

/-- Model of conda MatchSpec restricted to the interface core.py uses:
a package name plus an optional exact-version constraint. -/
structure MSpec where
  name : String
  version : Option String := none
deriving DecidableEq

/-- Split a character list at spaces; auxiliary to parseSpec, written
by structural recursion so that concrete spec strings evaluate inside
the kernel. -/
def splitSpace : List Char → List (List Char)
  | [] => [[]]
  | c :: cs =>
    match splitSpace cs, c with
    | r, ' ' => [] :: r
    | [], _ => [[c]]
    | w :: ws, _ => (c :: w) :: ws

/-- Model of MatchSpec construction from a dependency or CLI string:
a bare name, or a name followed by a version constraint (leading equals
signs stripped, matched exactly). -/
def parseSpec (s : String) : MSpec :=
  match ((splitSpace s.toList).map String.mk).filter (fun w => w ≠ "") with
  | [] => { name := s }
  | [n] => { name := n }
  | n :: c :: _ =>
    { name := n, version := some (String.mk (c.toList.dropWhile (fun ch => ch == '='))) }

/-- Model of MatchSpec.match: the name must agree and, when a version
constraint is present, the record version must equal it. -/
def MSpec.matches (s : MSpec) (r : PRecord) : Bool :=
  s.name == r.name &&
    (match s.version with
     | none => true
     | some v => v == r.version)

/-- Model of one SubdirData: the subdir (platform partition) tag and the
package records it serves; sd.query spec is records.filter matches. -/
structure SubdirData where
  subdir : String
  records : List PRecord
deriving DecidableEq

/-- Record Key, as used by the reduction working set:
(sd.channel.subdir, record.fn). -/
abbrev Key := String × String

/-- Working set: the records dict of core.py, an insertion-ordered
mapping from Key to PRecord, modelled as an association list. -/
abbrev RecMap := List (Key × PRecord)

/-- Membership test of a key in the working set (key in records). -/
def containsKey (m : RecMap) (k : Key) : Bool :=
  m.any fun p => p.1 == k

/-- Lookup of a key in the working set (records.get(key)). -/
def lookupRec (m : RecMap) (k : Key) : Option PRecord :=
  (m.find? fun p => p.1 == k).map (fun p => p.2)

/-- Guarded insertion used by the closure and keep phases of
_reduce_index: if the key is already present the record is skipped,
otherwise it is appended (dict insertion order). -/
def insertIfAbsent (m : RecMap) (k : Key) (r : PRecord) : RecMap :=
  if containsKey m k then m else m ++ [(k, r)]

/-- Plain dict insertion (overwrite) used by the everything-branch dict
comprehension of _reduce_index: a later record with a seen key replaces
the stored value in place. -/
def dictInsert (m : RecMap) (k : Key) (r : PRecord) : RecMap :=
  if containsKey m k then m.map (fun p => if p.1 == k then (k, r) else p)
  else m ++ [(k, r)]

/-- Time-window filter of _keep_records: skip when before is given and
timestamp >= before, skip when after is given and timestamp <= after. -/
def inWindow (after? before? : Option Int) (r : PRecord) : Bool :=
  (match before? with
   | some b => decide (tsOf r < b)
   | none => true) &&
  (match after? with
   | some a => decide (a < tsOf r)
   | none => true)

/-- Model of _keep_records: with truthy specs, yield per spec, per
subdir, the matching records inside the time window; with no specs but
some bound, yield every record inside the window; otherwise raise. -/
def keepRecordsE (sds : List SubdirData) (specs : List MSpec)
    (after? before? : Option Int) : Except String (List (String × PRecord)) :=
  if !specs.isEmpty then
    .ok (specs.flatMap fun spec => sds.flatMap fun sd =>
      ((sd.records.filter fun r => spec.matches r).filter
        (inWindow after? before?)).map fun r => (sd.subdir, r))
  else if before?.isSome || after?.isSome then
    .ok (sds.flatMap fun sd =>
      (sd.records.filter (inWindow after? before?)).map fun r => (sd.subdir, r))
  else
    .error "Must provide at least one truthy specs, after or before."

/-- Total wrapper around keepRecordsE; inside _reduce_index every call
site is guarded so that the error branch is unreachable
(keepRecordsE_ok_of_guard below). -/
def keepRecordsD (sds : List SubdirData) (specs : List MSpec)
    (after? before? : Option Int) : List (String × PRecord) :=
  (keepRecordsE sds specs after? before?).toOption.getD []

/-- Insertion into the pending-spec worklist, modelling addition to the
Python set specs_from_trees: a no-op when the spec is already pending. -/
def pushSpec (wl : List MSpec) (s : MSpec) : List MSpec :=
  if s ∈ wl then wl else wl ++ [s]

/-- Enqueue the parsed dependency specs of a freshly added record
(for dep in record.depends: specs_from_trees.add(MatchSpec(dep))). -/
def addDeps (wl : List MSpec) (deps : List String) : List MSpec :=
  deps.foldl (fun w d => pushSpec w (parseSpec d)) wl

/-- One record step shared by the seed loop and the worklist loop of
_reduce_index: skip if the key is present, else store the record and
enqueue its dependency specs. -/
def seedStep (st : RecMap × List MSpec) (sr : String × PRecord) :
    RecMap × List MSpec :=
  if containsKey st.1 (sr.1, sr.2.fn) then st
  else (st.1 ++ [((sr.1, sr.2.fn), sr.2)], addDeps st.2 sr.2.depends)

/-- Seed phase of the tree branch of _reduce_index (lines 137 to 142):
every tree-keep match inside the time window is stored and its
dependency specs collected. -/
def seedTrees (sds : List SubdirData) (treeSpecs : List MSpec)
    (after? before? : Option Int) : RecMap × List MSpec :=
  (keepRecordsD sds treeSpecs after? before?).foldl seedStep ([], [])

/-- Processing of one popped worklist spec (lines 147 to 156 of
core.py): for every subdir, for every record matching the spec, apply
the guarded store-and-enqueue step. -/
def processSpec (sds : List SubdirData) (spec : MSpec)
    (st : RecMap × List MSpec) : RecMap × List MSpec :=
  sds.foldl (fun st sd =>
    (sd.records.filter fun r => spec.matches r).foldl
      (fun st r => seedStep st (sd.subdir, r)) st) st

/-- All (subdir, record) entries of the index, in iteration order. -/
def indexPairs (sds : List SubdirData) : List (String × PRecord) :=
  sds.flatMap fun sd => sd.records.map fun r => (sd.subdir, r)

/-- Termination potential of the worklist loop: total dependency count
of index entries whose key is not yet in the working set. -/
def potentialOver (pairs : List (String × PRecord)) (m : RecMap) : Nat :=
  (pairs.map fun p =>
    if containsKey m (p.1, p.2.fn) then 0 else p.2.depends.length).sum

/-- Fuel that provably suffices to drain the worklist loop
(closure_loop_drains below): pending specs plus remaining potential. -/
def closureFuel (sds : List SubdirData) (recs : RecMap)
    (wl : List MSpec) : Nat :=
  wl.length + potentialOver (indexPairs sds) recs

/-- The while specs_from_trees loop of _reduce_index (lines 145 to 156),
parametrised by the order in which the Python set yields popped specs
(pick chooses the position) and written with explicit fuel; the source
loop carries no fuel, and closure_loop_drains shows the fuel computed by
closureFuel never runs out, so the embedding with that fuel coincides
with the source loop. -/
def closureLoop (pick : List MSpec → Nat) (sds : List SubdirData) :
    Nat → RecMap → List MSpec → Option RecMap
  | 0, recs, wl => if wl.isEmpty then some recs else none
  | fuel + 1, recs, wl =>
    match wl with
    | [] => some recs
    | w :: ws =>
      let i := pick (w :: ws) % (w :: ws).length
      let spec := (w :: ws).getD i w
      let st := processSpec sds spec (recs, (w :: ws).eraseIdx i)
      closureLoop pick sds fuel st.1 st.2

/-- The names_to_keep dict of _reduce_index (line 134): name of each
keep and tree spec mapped to the spec, later entries overwriting
earlier ones in place (tree specs come after keep specs). -/
def upsertName (m : List (String × MSpec)) (s : MSpec) :
    List (String × MSpec) :=
  if m.any (fun p => p.1 == s.name) then
    m.map (fun p => if p.1 == s.name then (p.1, s) else p)
  else m ++ [(s.name, s)]

/-- Build names_to_keep from the keep specs followed by the tree specs. -/
def namesToKeep (keeps trees : List MSpec) : List (String × MSpec) :=
  (keeps ++ trees).foldl upsertName []

/-- Lookup in names_to_keep (names_to_keep.get(record.name)). -/
def lookupName (m : List (String × MSpec)) (n : String) : Option MSpec :=
  (m.find? fun p => p.1 == n).map (fun p => p.2)

/-- Reconciliation pass of _reduce_index (lines 164 to 169): drop every
stored record whose name has an entry in names_to_keep that the record
does not match. -/
def reconcileKeep (ntk : List (String × MSpec)) (recs : RecMap) : RecMap :=
  recs.filter fun kr =>
    match lookupName ntk kr.2.name with
    | some s => s.matches kr.2
    | none => true

/-- Keep slice of _reduce_index (lines 171 to 176): every record
yielded by _keep_records for the keep specs and bounds is inserted if
its key is absent. -/
def addKeepSlice (sds : List SubdirData) (keeps : List MSpec)
    (after? before? : Option Int) (recs : RecMap) : RecMap :=
  (keepRecordsD sds keeps after? before?).foldl
    (fun m sr => insertIfAbsent m (sr.1, sr.2.fn) sr.2) recs

/-- Everything branch of _reduce_index (lines 177 to 183): the dict
comprehension over every record of every subdir. -/
def fullIndex (sds : List SubdirData) : RecMap :=
  (indexPairs sds).foldl (fun m sr => dictInsert m (sr.1, sr.2.fn) sr.2) []

/-- Tree part of the seed phase (lines 135 to 156): when tree specs are
given, seed them and drain the worklist loop; the fuel computed by
closureFuel provably never runs out (closureLoop_isSome_of_fuel), so
the getD fallback is unreachable and this equals the source loop. -/
def treeClosure (pick : List MSpec → Nat) (sds : List SubdirData)
    (treeS : List MSpec) (after? before? : Option Int) : RecMap :=
  if treeS.isEmpty then ([] : RecMap)
  else
    (closureLoop pick sds
        (closureFuel sds (seedTrees sds treeS after? before?).1
          (seedTrees sds treeS after? before?).2)
        (seedTrees sds treeS after? before?).1
        (seedTrees sds treeS after? before?).2).getD
      (seedTrees sds treeS after? before?).1

/-- Seed portion of _reduce_index (lines 132 to 183): tree closure,
reconciliation and keep slice when any keep filter is present,
otherwise the full index. -/
def seedPhase (pick : List MSpec → Nat) (sds : List SubdirData)
    (keepS treeS : List MSpec) (after? before? : Option Int) : RecMap :=
  if !treeS.isEmpty || !keepS.isEmpty || after?.isSome || before?.isSome then
    if !keepS.isEmpty || after?.isSome || before?.isSome then
      addKeepSlice sds keepS after? before?
        (reconcileKeep (namesToKeep keepS treeS)
          (treeClosure pick sds treeS after? before?))
    else
      reconcileKeep (namesToKeep keepS treeS)
        (treeClosure pick sds treeS after? before?)
  else fullIndex sds

/-- Removal marking of _reduce_index (lines 186 to 208): a record joins
to_remove when a prune spec of its name rejects it, or an explicit
remove spec matches it, or one of its dependency strings matches a
depends-removal glob pattern under the matcher fnm. -/
def markedForRemoval (removeS : List MSpec) (dependsRm : List String)
    (pruneS : List MSpec) (fnm : String → String → Bool)
    (r : PRecord) : Bool :=
  pruneS.any (fun s => s.name == r.name && !(s.matches r)) ||
  removeS.any (fun s => s.matches r) ||
  dependsRm.any (fun pat => r.depends.any fun d => fnm d pat)

/-- Removal phase of _reduce_index (lines 186 to 211): pop every marked
key from the working set. -/
def applyRemovals (removeS : List MSpec) (dependsRm : List String)
    (pruneS : List MSpec) (fnm : String → String → Bool)
    (recs : RecMap) : RecMap :=
  recs.filter fun kr => !(markedForRemoval removeS dependsRm pruneS fnm kr.2)

/-- The full _reduce_index, parametrised by the worklist pop order pick
and by the dependency glob matcher fnm (the custom fnmatch of core.py,
an orthogonal string matcher whose dialect no claim depends on). -/
def reduceIndexP (pick : List MSpec → Nat) (fnm : String → String → Bool)
    (sds : List SubdirData)
    (specsToKeep specsToRemove : List String)
    (specsDependsToRemove : List String)
    (specsToPrune treesToKeep : List String)
    (after? before? : Option Int) : RecMap :=
  let keepS := specsToKeep.map parseSpec
  let removeS := specsToRemove.map parseSpec
  let pruneS := specsToPrune.map parseSpec
  let treeS := treesToKeep.map parseSpec
  applyRemovals removeS specsDependsToRemove pruneS fnm
    (seedPhase pick sds keepS treeS after? before?)

/-- Canonical pop order: always pop the head of the pending list. -/
def pick0 : List MSpec → Nat := fun _ => 0

/-- Restriction of the custom glob matcher of core.py to patterns
without glob metacharacters, where glob matching is string equality;
used only to instantiate witnesses and counterexamples. -/
def fnmatchLit (d pat : String) : Bool := d == pat

/-- The _reduce_index entry point with the canonical pop order and the
literal glob instantiation. -/
def reduceIndex (sds : List SubdirData)
    (specsToKeep specsToRemove : List String)
    (specsDependsToRemove : List String)
    (specsToPrune treesToKeep : List String)
    (after? before? : Option Int) : RecMap :=
  reduceIndexP pick0 fnmatchLit sds specsToKeep specsToRemove
    specsDependsToRemove specsToPrune treesToKeep after? before?

/-- Python truthiness of the optional after and before CLI values
(a float; 0 is falsy). -/
def optTruthy (x : Option Int) : Bool :=
  match x with
  | some v => v != 0
  | none => false

/-- The guard of cli.py execute (line 118): any of after, before, keep,
remove, keep_tree, prune truthy. -/
def anyFilter (after? before? : Option Int)
    (keep remove keepTree prune : List String) : Bool :=
  optTruthy after? || optTruthy before? || !keep.isEmpty ||
    !remove.isEmpty || !keepTree.isEmpty || !prune.isEmpty

/-- Model of cli.py execute up to the reduction result: refuse with an
ArgumentError when no filter is given, otherwise fetch the channel
(the index provider, abstracted as fetch) and reduce; serialization of
the result is outside the modelled boundary.  The CLI passes no
depends-removal patterns. -/
def executeModel (pick : List MSpec → Nat)
    (fetch : Unit → List SubdirData) (fnm : String → String → Bool)
    (after? before? : Option Int)
    (keep remove keepTree prune : List String) : Except String RecMap :=
  if !anyFilter after? before? keep remove keepTree prune then
    .error "Please provide at least one filter."
  else
    let sds := fetch ()
    .ok (reduceIndexP pick fnm sds keep remove [] prune keepTree after? before?)

/-! ### Concrete fixtures

Small indexes used to instantiate witnesses and counterexamples. -/

/-- Record pkga-1 of the cycle index: depends on pkgb. -/
def pkgA1 : PRecord :=
  { name := "pkga", version := "1", fn := "pkga-1", depends := ["pkgb"] }

/-- Record pkga-2 of the cycle index: depends on pkgc; it does not match
the tree spec pkga ==1 and is only reachable through the cycle. -/
def pkgA2 : PRecord :=
  { name := "pkga", version := "2", fn := "pkga-2", depends := ["pkgc"] }

/-- Record pkgb-1 of the cycle index: depends back on pkga (the cycle). -/
def pkgB1 : PRecord :=
  { name := "pkgb", version := "1", fn := "pkgb-1", depends := ["pkga"] }

/-- Record pkgc-1 of the cycle index: a dependency of pkga-2 only. -/
def pkgC1 : PRecord :=
  { name := "pkgc", version := "1", fn := "pkgc-1", depends := [] }

/-- Index with the dependency cycle pkga to pkgb to pkga. -/
def sdCyc : SubdirData :=
  { subdir := "s", records := [pkgA1, pkgA2, pkgB1, pkgC1] }

/-- Version 1 of pkga, no dependencies. -/
def qA1 : PRecord :=
  { name := "pkga", version := "1", fn := "pkga-1", depends := [] }

/-- Version 2 of pkga, no dependencies. -/
def qA2 : PRecord :=
  { name := "pkga", version := "2", fn := "pkga-2", depends := [] }

/-- Index with two versions of the same package name. -/
def sdQ : SubdirData := { subdir := "s", records := [qA1, qA2] }

/-- Tree seed with timestamp 100 inside the window (50, 250). -/
def wA : PRecord :=
  { name := "pkga", version := "1", fn := "pkga-1", depends := [],
    timestamp := some 100 }

/-- Unrelated record with timestamp 200 inside the window (50, 250). -/
def wX : PRecord :=
  { name := "pkgx", version := "1", fn := "pkgx-1", depends := [],
    timestamp := some 200 }

/-- Index with a tree seed and an unrelated in-window record. -/
def sdW : SubdirData := { subdir := "s", records := [wA, wX] }

/-- Record at timestamp 100. -/
def t100 : PRecord :=
  { name := "p1", version := "1", fn := "p1-1", depends := [], timestamp := some 100 }

/-- Record at timestamp 200. -/
def t200 : PRecord :=
  { name := "p2", version := "1", fn := "p2-1", depends := [], timestamp := some 200 }

/-- Record at timestamp 300. -/
def t300 : PRecord :=
  { name := "p3", version := "1", fn := "p3-1", depends := [], timestamp := some 300 }

/-- Index with records at timestamps 100, 200 and 300. -/
def sdT : SubdirData := { subdir := "s", records := [t100, t200, t300] }

/-- Record carrying no timestamp at all. -/
def noTs : PRecord :=
  { name := "pkgn", version := "1", fn := "pkgn-1", depends := [] }

/-- Index holding only the record without a timestamp. -/
def sdN : SubdirData := { subdir := "s", records := [noTs] }

/-- Tree seed at timestamp 200, inside the window (150, 250). -/
def s200 : PRecord :=
  { name := "pkga", version := "1", fn := "pkga-1", depends := ["pkgb"],
    timestamp := some 200 }

/-- Dependency of the seed at timestamp 500, outside the window. -/
def d500 : PRecord :=
  { name := "pkgb", version := "1", fn := "pkgb-1", depends := [],
    timestamp := some 500 }

/-- Index whose seed depends on a record outside the time window. -/
def sdD : SubdirData := { subdir := "s", records := [s200, d500] }

/-! ### Determinism infrastructure

The worklist of _reduce_index is a Python set whose pop order is
unspecified; closureLoop therefore takes the pop order as the pick
parameter.  The definitions below support the proof that the reduction
result does not depend on pick, under the Record Key invariant of the
data model (two index entries with one key hold one record). -/

/-- Alternative pop order popping the last pending spec, used to
instantiate the determinism theorem at a concrete second order. -/
def pickLast : List MSpec → Nat := fun l => l.length - 1

/-- Keys of a working set are pairwise distinct. -/
def NoDupKeys (m : RecMap) : Prop :=
  (m.map fun p => p.1).Nodup

/-- The pair (k, r) is an entry of the index: some subdir lists the
record r under the key k. -/
def IsIndexEntry (sds : List SubdirData) (k : Key) (r : PRecord) : Prop :=
  ∃ p ∈ indexPairs sds, p.2 = r ∧ ((p.1, p.2.fn) : Key) = k

/-- Key-uniqueness invariant of the data model: two index entries with
equal Record Key carry the same record. -/
def KeyFunctional (sds : List SubdirData) : Prop :=
  ∀ p ∈ indexPairs sds, ∀ q ∈ indexPairs sds,
    ((p.1, p.2.fn) : Key) = (q.1, q.2.fn) → p.2 = q.2

/-- Specs the worklist loop can process when started at recs0, wl0: the
initially pending specs, plus the parsed dependency strings of every
index record that matches a reachable spec and whose key recs0 does not
already hold (such a record gets stored, which enqueues its
dependencies). -/
inductive ReachS (sds : List SubdirData) (recs0 : RecMap) (wl0 : List MSpec) :
    MSpec → Prop where
  | base {s : MSpec} : s ∈ wl0 → ReachS sds recs0 wl0 s
  | step {s : MSpec} {sub : String} {r : PRecord} {d : String} :
      ReachS sds recs0 wl0 s → (sub, r) ∈ indexPairs sds →
      s.matches r = true → containsKey recs0 (sub, r.fn) = false →
      d ∈ r.depends → ReachS sds recs0 wl0 (parseSpec d)

/-- A spec is saturated in a working set when every index record it
matches is stored under its key. -/
def Satur (sds : List SubdirData) (s : MSpec) (m : RecMap) : Prop :=
  ∀ sub r, (sub, r) ∈ indexPairs sds → s.matches r = true →
    containsKey m (sub, r.fn) = true

/-- Invariant of the worklist loop relative to its starting state
recs0, wl0: the stored set only grows and stays sound (entries are
initial or reachable index entries), pending specs are reachable, and
every obligation (initial spec, or dependency of a stored non-initial
record) is either still pending or already saturated. -/
structure LoopInv (sds : List SubdirData) (recs0 : RecMap) (wl0 : List MSpec)
    (recs : RecMap) (wl : List MSpec) : Prop where
  mono : ∀ k, containsKey recs0 k = true → containsKey recs k = true
  sound_recs : ∀ p ∈ recs, p ∈ recs0 ∨
    (IsIndexEntry sds p.1 p.2 ∧ containsKey recs0 p.1 = false ∧
      ∃ s, ReachS sds recs0 wl0 s ∧ s.matches p.2 = true)
  sound_wl : ∀ s ∈ wl, ReachS sds recs0 wl0 s
  compl_init : ∀ s ∈ wl0, s ∈ wl ∨ Satur sds s recs
  compl_deps : ∀ p ∈ recs, containsKey recs0 p.1 = false →
    ∀ d ∈ p.2.depends, parseSpec d ∈ wl ∨ Satur sds (parseSpec d) recs
  nodup : NoDupKeys recs
  wl_nodup : wl.Nodup

/-! ### Helper lemmas on the working set -/

theorem lookupRec_mem {m : RecMap} {k : Key} {r : PRecord}
    (h : lookupRec m k = some r) : (k, r) ∈ m := by
  unfold lookupRec at h
  cases hf : m.find? (fun p => p.1 == k) with
  | none => simp [hf] at h
  | some p =>
    have hp := List.find?_some hf
    have hm := List.mem_of_find?_eq_some hf
    rw [hf] at h
    obtain ⟨p1, p2⟩ := p
    simp only [beq_iff_eq] at hp
    simp only [Option.map] at h
    cases h
    cases hp
    exact hm

theorem keepRecordsD_eq_specs (sds : List SubdirData) (specs : List MSpec)
    (after? before? : Option Int) (hne : specs.isEmpty = false) :
    keepRecordsD sds specs after? before? =
      specs.flatMap fun spec => sds.flatMap fun sd =>
        ((sd.records.filter fun r => spec.matches r).filter
          (inWindow after? before?)).map fun r => (sd.subdir, r) := by
  unfold keepRecordsD keepRecordsE
  rw [hne]
  simp [Except.toOption]

theorem keepRecordsD_eq_window (sds : List SubdirData)
    (after? before? : Option Int) (hb : (before?.isSome || after?.isSome) = true) :
    keepRecordsD sds [] after? before? =
      sds.flatMap fun sd =>
        (sd.records.filter (inWindow after? before?)).map fun r => (sd.subdir, r) := by
  unfold keepRecordsD keepRecordsE
  simp [hb, Except.toOption]

theorem inWindow_of_mem_keepRecordsD {sds : List SubdirData} {specs : List MSpec}
    {after? before? : Option Int} {sub : String} {r : PRecord}
    (h : (sub, r) ∈ keepRecordsD sds specs after? before?) :
    inWindow after? before? r = true := by
  by_cases hne : specs.isEmpty = true
  · rw [List.isEmpty_iff] at hne
    subst hne
    by_cases hb : (before?.isSome || after?.isSome) = true
    · rw [keepRecordsD_eq_window sds after? before? hb] at h
      simp only [List.mem_flatMap, List.mem_map, List.mem_filter] at h
      obtain ⟨sd, -, r2, ⟨-, hw⟩, heq⟩ := h
      injection heq with h1 h2
      subst h2
      exact hw
    · exfalso
      unfold keepRecordsD keepRecordsE at h
      rw [Bool.eq_false_iff.mpr hb] at h
      simp [Except.toOption] at h
  · rw [keepRecordsD_eq_specs sds specs after? before? (Bool.eq_false_iff.mpr hne)] at h
    simp only [List.mem_flatMap, List.mem_map, List.mem_filter] at h
    obtain ⟨spec, -, sd, -, r2, ⟨-, hw⟩, heq⟩ := h
    injection heq with h1 h2
    subst h2
    exact hw

theorem window_mem_keepRecordsD {sds : List SubdirData} {after? before? : Option Int}
    {sd : SubdirData} {r : PRecord} (hsd : sd ∈ sds) (hr : r ∈ sd.records)
    (hw : inWindow after? before? r = true)
    (hb : (before?.isSome || after?.isSome) = true) :
    (sd.subdir, r) ∈ keepRecordsD sds [] after? before? := by
  rw [keepRecordsD_eq_window sds after? before? hb]
  simp only [List.mem_flatMap, List.mem_map, List.mem_filter]
  exact ⟨sd, hsd, r, ⟨hr, hw⟩, rfl⟩

theorem containsKey_insertIfAbsent_self (m : RecMap) (k : Key) (r : PRecord) :
    containsKey (insertIfAbsent m k r) k = true := by
  unfold insertIfAbsent
  split
  · assumption
  · unfold containsKey
    rw [List.any_append]
    simp

theorem containsKey_insertIfAbsent_mono {m : RecMap} {k : Key} (k2 : Key) (r : PRecord)
    (h : containsKey m k = true) : containsKey (insertIfAbsent m k2 r) k = true := by
  unfold insertIfAbsent
  split
  · exact h
  · unfold containsKey at h ⊢
    rw [List.any_append, h, Bool.true_or]

theorem containsKey_foldl_insert_mono {l : List (String × PRecord)} :
    ∀ {m : RecMap} {k : Key}, containsKey m k = true →
    containsKey (l.foldl (fun m sr => insertIfAbsent m (sr.1, sr.2.fn) sr.2) m) k = true := by
  induction l with
  | nil => intro m k h; exact h
  | cons a as ih =>
    intro m k h
    rw [List.foldl_cons]
    exact ih (containsKey_insertIfAbsent_mono _ _ h)

theorem containsKey_foldl_insert_of_mem :
    ∀ (l : List (String × PRecord)) (m : RecMap) (x : String × PRecord), x ∈ l →
    containsKey (l.foldl (fun m sr => insertIfAbsent m (sr.1, sr.2.fn) sr.2) m)
      (x.1, x.2.fn) = true := by
  intro l
  induction l with
  | nil => intro m x hx; cases hx
  | cons a as ih =>
    intro m x hx
    rw [List.foldl_cons]
    rcases List.mem_cons.mp hx with rfl | hx2
    · exact containsKey_foldl_insert_mono (containsKey_insertIfAbsent_self m _ _)
    · exact ih _ x hx2

/-! ### Termination of the worklist loop -/

theorem containsKey_append_left {m : RecMap} {k : Key} (l : RecMap)
    (h : containsKey m k = true) : containsKey (m ++ l) k = true := by
  unfold containsKey at h ⊢
  rw [List.any_append, h, Bool.true_or]

theorem containsKey_append_self (m : RecMap) (k : Key) (r : PRecord) :
    containsKey (m ++ [(k, r)]) k = true := by
  unfold containsKey
  rw [List.any_append]
  simp

theorem potentialOver_mono {pairs : List (String × PRecord)} {m m2 : RecMap}
    (h : ∀ k, containsKey m k = true → containsKey m2 k = true) :
    potentialOver pairs m2 ≤ potentialOver pairs m := by
  unfold potentialOver
  apply List.sum_le_sum
  intro p hp
  by_cases hc : containsKey m (p.1, p.2.fn) = true
  · rw [if_pos hc, if_pos (h _ hc)]
  · rw [if_neg hc]
    split
    · exact Nat.zero_le _
    · exact le_refl _

theorem potentialOver_insert_le {pairs : List (String × PRecord)}
    {m : RecMap} {sub : String} {r : PRecord}
    (hmem : (sub, r) ∈ pairs) (habs : containsKey m (sub, r.fn) = false) :
    potentialOver pairs (m ++ [((sub, r.fn), r)]) + r.depends.length ≤
      potentialOver pairs m := by
  induction pairs with
  | nil => cases hmem
  | cons a as ih =>
    unfold potentialOver at ih ⊢
    rw [List.map_cons, List.sum_cons, List.map_cons, List.sum_cons]
    have htail2 : potentialOver as (m ++ [((sub, r.fn), r)]) ≤ potentialOver as m :=
      potentialOver_mono (fun k hk => containsKey_append_left _ hk)
    unfold potentialOver at htail2
    rcases List.mem_cons.mp hmem with heq | hmem2
    · subst heq
      dsimp only
      rw [if_pos (containsKey_append_self m (sub, r.fn) r),
        if_neg (by simp [habs])]
      omega
    · have hhead : (if containsKey (m ++ [((sub, r.fn), r)]) (a.1, a.2.fn) then 0
          else a.2.depends.length) ≤
          (if containsKey m (a.1, a.2.fn) then 0 else a.2.depends.length) := by
        by_cases hc : containsKey m (a.1, a.2.fn) = true
        · rw [if_pos hc, if_pos (containsKey_append_left _ hc)]
        · rw [if_neg hc]
          split
          · exact Nat.zero_le _
          · exact le_refl _
      have := ih hmem2
      omega

theorem addDeps_length (deps : List String) : ∀ wl : List MSpec,
    (addDeps wl deps).length ≤ wl.length + deps.length := by
  induction deps with
  | nil => intro wl; simp [addDeps]
  | cons d ds ih =>
    intro wl
    unfold addDeps at ih ⊢
    rw [List.foldl_cons]
    have h1 := ih (pushSpec wl (parseSpec d))
    have h2 : (pushSpec wl (parseSpec d)).length ≤ wl.length + 1 := by
      unfold pushSpec
      split
      · omega
      · rw [List.length_append]
        simp
    rw [List.length_cons]
    omega

theorem seedStep_measure {pairs : List (String × PRecord)}
    (st : RecMap × List MSpec) {sub : String} {r : PRecord}
    (hmem : (sub, r) ∈ pairs) :
    (seedStep st (sub, r)).2.length + potentialOver pairs (seedStep st (sub, r)).1 ≤
      st.2.length + potentialOver pairs st.1 := by
  unfold seedStep
  split
  · exact le_refl _
  · rename_i habs
    dsimp only
    have h1 := addDeps_length r.depends st.2
    have h2 := potentialOver_insert_le hmem (Bool.eq_false_iff.mpr habs)
    omega

theorem foldl_seedStep_measure {pairs : List (String × PRecord)} (sub : String) :
    ∀ (L : List PRecord) (st : RecMap × List MSpec),
    (∀ r ∈ L, (sub, r) ∈ pairs) →
    (L.foldl (fun st r => seedStep st (sub, r)) st).2.length +
      potentialOver pairs (L.foldl (fun st r => seedStep st (sub, r)) st).1 ≤
      st.2.length + potentialOver pairs st.1 := by
  intro L
  induction L with
  | nil => intro st h; exact le_refl _
  | cons a as ih =>
    intro st h
    rw [List.foldl_cons]
    exact le_trans (ih _ (fun r hr => h r (List.mem_cons_of_mem _ hr)))
      (seedStep_measure st (h a (List.mem_cons_self _ _)))

theorem mem_indexPairs {sds : List SubdirData} {sd : SubdirData} {r : PRecord}
    (hsd : sd ∈ sds) (hr : r ∈ sd.records) : (sd.subdir, r) ∈ indexPairs sds := by
  unfold indexPairs
  rw [List.mem_flatMap]
  exact ⟨sd, hsd, List.mem_map_of_mem _ hr⟩

theorem foldl_sds_measure (pairs : List (String × PRecord)) (spec : MSpec) :
    ∀ (L : List SubdirData) (st : RecMap × List MSpec),
    (∀ sd ∈ L, ∀ r ∈ sd.records, (sd.subdir, r) ∈ pairs) →
    (L.foldl (fun st sd =>
        (sd.records.filter fun r => spec.matches r).foldl
          (fun st r => seedStep st (sd.subdir, r)) st) st).2.length +
      potentialOver pairs
        (L.foldl (fun st sd =>
          (sd.records.filter fun r => spec.matches r).foldl
            (fun st r => seedStep st (sd.subdir, r)) st) st).1 ≤
      st.2.length + potentialOver pairs st.1 := by
  intro L
  induction L with
  | nil => intro st h; exact le_refl _
  | cons sd rest ih =>
    intro st h
    rw [List.foldl_cons]
    refine le_trans (ih _ (fun sd2 h2 => h sd2 (List.mem_cons_of_mem _ h2))) ?_
    apply foldl_seedStep_measure
    intro r hr
    rw [List.mem_filter] at hr
    exact h sd (List.mem_cons_self _ _) r hr.1

theorem processSpec_measure (sds : List SubdirData) (spec : MSpec)
    (recs : RecMap) (wl : List MSpec) :
    (processSpec sds spec (recs, wl)).2.length +
      potentialOver (indexPairs sds) (processSpec sds spec (recs, wl)).1 ≤
      wl.length + potentialOver (indexPairs sds) recs := by
  unfold processSpec
  exact foldl_sds_measure (indexPairs sds) spec sds (recs, wl)
    (fun sd hsd r hr => mem_indexPairs hsd hr)

theorem closureLoop_succ (pick : List MSpec → Nat) (sds : List SubdirData)
    (n : Nat) (recs : RecMap) (w : MSpec) (ws : List MSpec) :
    closureLoop pick sds (n + 1) recs (w :: ws) =
      closureLoop pick sds n
        (processSpec sds ((w :: ws).getD (pick (w :: ws) % (w :: ws).length) w)
          (recs, (w :: ws).eraseIdx (pick (w :: ws) % (w :: ws).length))).1
        (processSpec sds ((w :: ws).getD (pick (w :: ws) % (w :: ws).length) w)
          (recs, (w :: ws).eraseIdx (pick (w :: ws) % (w :: ws).length))).2 := rfl

theorem closureLoop_isSome_of_fuel :
    ∀ (fuel : Nat) (pick : List MSpec → Nat) (sds : List SubdirData)
      (recs : RecMap) (wl : List MSpec),
      closureFuel sds recs wl ≤ fuel →
      (closureLoop pick sds fuel recs wl).isSome = true := by
  intro fuel
  induction fuel with
  | zero =>
    intro pick sds recs wl h
    unfold closureFuel at h
    have hlen : wl.length = 0 := by omega
    rw [List.length_eq_zero] at hlen
    subst hlen
    simp [closureLoop]
  | succ n ih =>
    intro pick sds recs wl h
    cases wl with
    | nil => simp [closureLoop]
    | cons w ws =>
      rw [closureLoop_succ]
      apply ih
      have hlen : pick (w :: ws) % (w :: ws).length < (w :: ws).length :=
        Nat.mod_lt _ (by simp)
      have herase : ((w :: ws).eraseIdx (pick (w :: ws) % (w :: ws).length)).length
          = ws.length := by
        rw [List.length_eraseIdx, if_pos hlen]
        simp
      have hproc := processSpec_measure sds
        ((w :: ws).getD (pick (w :: ws) % (w :: ws).length) w) recs
        ((w :: ws).eraseIdx (pick (w :: ws) % (w :: ws).length))
      unfold closureFuel at h ⊢
      rw [List.length_cons] at h
      rw [herase] at hproc
      omega

/-! ### Order independence of the worklist loop: basic lemmas -/

theorem containsKey_of_mem {m : RecMap} {p : Key × PRecord} (h : p ∈ m) :
    containsKey m p.1 = true := by
  unfold containsKey
  rw [List.any_eq_true]
  exact ⟨p, h, by simp⟩

theorem containsKey_exists_mem {m : RecMap} {k : Key}
    (h : containsKey m k = true) : ∃ r, (k, r) ∈ m := by
  unfold containsKey at h
  rw [List.any_eq_true] at h
  obtain ⟨p, hp, hpk⟩ := h
  rw [beq_iff_eq] at hpk
  subst hpk
  exact ⟨p.2, hp⟩

theorem containsKey_eq_isSome_lookup (m : RecMap) (k : Key) :
    containsKey m k = (lookupRec m k).isSome := by
  unfold containsKey lookupRec
  cases hf : m.find? (fun p => p.1 == k) with
  | none =>
    rw [List.find?_eq_none] at hf
    simp only [Option.map_none', Option.isSome_none]
    rw [List.any_eq_false]
    exact hf
  | some p =>
    simp only [Option.map_some', Option.isSome_some]
    rw [List.any_eq_true]
    have hp := List.find?_some hf
    exact ⟨p, List.mem_of_find?_eq_some hf, hp⟩

theorem lookupRec_eq_none_of_not_contains {m : RecMap} {k : Key}
    (h : containsKey m k = false) : lookupRec m k = none := by
  rw [containsKey_eq_isSome_lookup] at h
  cases hl : lookupRec m k with
  | none => rfl
  | some r => rw [hl] at h; simp at h

theorem lookupRec_append (m l : RecMap) (k : Key) :
    lookupRec (m ++ l) k = (lookupRec m k).or (lookupRec l k) := by
  unfold lookupRec
  rw [List.find?_append]
  cases m.find? (fun p => p.1 == k) <;> simp [Option.or]

theorem lookupRec_of_mem_nodup {m : RecMap} {k : Key} {r : PRecord}
    (hm : NoDupKeys m) (h : (k, r) ∈ m) : lookupRec m k = some r := by
  induction m with
  | nil => cases h
  | cons a as ih =>
    unfold NoDupKeys at hm
    rw [List.map_cons, List.nodup_cons] at hm
    obtain ⟨hknot, htail⟩ := hm
    rcases List.mem_cons.mp h with rfl | h2
    · unfold lookupRec
      rw [@List.find?_cons_of_pos (Key × PRecord) (fun p => p.1 == k) (k, r) as (by simp)]
      rfl
    · have hkne : ¬(a.1 == k) = true := by
        rw [beq_iff_eq]
        intro heq
        apply hknot
        rw [heq]
        exact List.mem_map_of_mem _ h2
      unfold lookupRec
      rw [@List.find?_cons_of_neg (Key × PRecord) (fun p => p.1 == k) a as hkne]
      exact ih htail h2

theorem nodup_val_unique {m : RecMap} {k : Key} {a b : PRecord}
    (hm : NoDupKeys m) (ha : (k, a) ∈ m) (hb : (k, b) ∈ m) : a = b := by
  have h1 := lookupRec_of_mem_nodup hm ha
  have h2 := lookupRec_of_mem_nodup hm hb
  rw [h1] at h2
  exact Option.some.inj h2

theorem nodupKeys_nil : NoDupKeys [] := by simp [NoDupKeys]

theorem nodupKeys_append_of_not_contains {m : RecMap} {k : Key} {r : PRecord}
    (hm : NoDupKeys m) (h : containsKey m k = false) :
    NoDupKeys (m ++ [(k, r)]) := by
  unfold NoDupKeys at hm ⊢
  rw [List.map_append]
  simp only [List.map_cons, List.map_nil]
  rw [List.nodup_append]
  refine ⟨hm, List.nodup_singleton _, ?_⟩
  intro x hx hx2
  rw [List.mem_singleton] at hx2
  subst hx2
  rw [List.mem_map] at hx
  obtain ⟨p, hp, hpk⟩ := hx
  unfold containsKey at h
  rw [List.any_eq_false] at h
  exact h p hp (by rw [beq_iff_eq]; exact hpk)

theorem satur_mono {sds : List SubdirData} {s : MSpec} {m m2 : RecMap}
    (h : Satur sds s m)
    (hmono : ∀ k, containsKey m k = true → containsKey m2 k = true) :
    Satur sds s m2 :=
  fun sub r hmem hm => hmono _ (h sub r hmem hm)

/-! ### Order independence: single seedStep lemmas -/

theorem seedStep_fst_mono {st : RecMap × List MSpec} {k : Key}
    (x : String × PRecord) (h : containsKey st.1 k = true) :
    containsKey (seedStep st x).1 k = true := by
  unfold seedStep
  split
  · exact h
  · dsimp only
    exact containsKey_append_left _ h

theorem mem_pushSpec_self (wl : List MSpec) (s : MSpec) : s ∈ pushSpec wl s := by
  unfold pushSpec
  split
  · assumption
  · simp

theorem mem_pushSpec_of_mem {wl : List MSpec} {s2 : MSpec} (s : MSpec)
    (h : s2 ∈ wl) : s2 ∈ pushSpec wl s := by
  unfold pushSpec
  split
  · exact h
  · exact List.mem_append_left _ h

theorem mem_addDeps_of_mem {wl : List MSpec} {s : MSpec} (deps : List String)
    (h : s ∈ wl) : s ∈ addDeps wl deps := by
  induction deps generalizing wl with
  | nil => exact h
  | cons d ds ih =>
    show s ∈ addDeps (pushSpec wl (parseSpec d)) ds
    exact ih (mem_pushSpec_of_mem _ h)

theorem mem_addDeps_self {deps : List String} {d : String} (wl : List MSpec)
    (h : d ∈ deps) : parseSpec d ∈ addDeps wl deps := by
  induction deps generalizing wl with
  | nil => cases h
  | cons d0 ds ih =>
    show parseSpec d ∈ addDeps (pushSpec wl (parseSpec d0)) ds
    rcases List.mem_cons.mp h with rfl | h2
    · exact mem_addDeps_of_mem ds (mem_pushSpec_self wl (parseSpec d))
    · exact ih _ h2

theorem mem_addDeps_cases {wl : List MSpec} {deps : List String} {s : MSpec}
    (h : s ∈ addDeps wl deps) : s ∈ wl ∨ ∃ d ∈ deps, s = parseSpec d := by
  induction deps generalizing wl with
  | nil => exact Or.inl h
  | cons d0 ds ih =>
    rw [show addDeps wl (d0 :: ds) = addDeps (pushSpec wl (parseSpec d0)) ds
      from rfl] at h
    rcases ih h with hin | ⟨d, hd, rfl⟩
    · unfold pushSpec at hin
      split at hin
      · exact Or.inl hin
      · rcases List.mem_append.mp hin with h1 | h1
        · exact Or.inl h1
        · rw [List.mem_singleton] at h1
          exact Or.inr ⟨d0, List.mem_cons_self _ _, h1⟩
    · exact Or.inr ⟨d, List.mem_cons_of_mem _ hd, rfl⟩

theorem addDeps_nodup {deps : List String} :
    ∀ {wl : List MSpec}, wl.Nodup → (addDeps wl deps).Nodup := by
  induction deps with
  | nil => intro wl h; exact h
  | cons d ds ih =>
    intro wl h
    show (addDeps (pushSpec wl (parseSpec d)) ds).Nodup
    apply ih
    unfold pushSpec
    split
    · exact h
    · rename_i hnot
      rw [List.nodup_append]
      refine ⟨h, List.nodup_singleton _, ?_⟩
      intro x hx hx2
      rw [List.mem_singleton] at hx2
      subst hx2
      exact hnot hx

theorem seedStep_fst_cases {st : RecMap × List MSpec} {x : String × PRecord}
    {p : Key × PRecord} (h : p ∈ (seedStep st x).1) :
    p ∈ st.1 ∨
      (p = ((x.1, x.2.fn), x.2) ∧ containsKey st.1 (x.1, x.2.fn) = false) := by
  unfold seedStep at h
  split at h
  · exact Or.inl h
  · rename_i hnc
    dsimp only at h
    rcases List.mem_append.mp h with h1 | h1
    · exact Or.inl h1
    · rw [List.mem_singleton] at h1
      exact Or.inr ⟨h1, Bool.eq_false_iff.mpr hnc⟩

theorem seedStep_snd_mono {st : RecMap × List MSpec} {s : MSpec}
    (x : String × PRecord) (h : s ∈ st.2) : s ∈ (seedStep st x).2 := by
  unfold seedStep
  split
  · exact h
  · dsimp only
    exact mem_addDeps_of_mem _ h

theorem seedStep_snd_cases {st : RecMap × List MSpec} {x : String × PRecord}
    {s : MSpec} (h : s ∈ (seedStep st x).2) :
    s ∈ st.2 ∨ ((∃ d ∈ x.2.depends, s = parseSpec d) ∧
      containsKey st.1 (x.1, x.2.fn) = false) := by
  unfold seedStep at h
  split at h
  · exact Or.inl h
  · rename_i hnc
    dsimp only at h
    rcases mem_addDeps_cases h with h1 | h1
    · exact Or.inl h1
    · exact Or.inr ⟨h1, Bool.eq_false_iff.mpr hnc⟩

theorem seedStep_self_key (st : RecMap × List MSpec) (x : String × PRecord) :
    containsKey (seedStep st x).1 (x.1, x.2.fn) = true := by
  unfold seedStep
  split
  · assumption
  · dsimp only
    exact containsKey_append_self _ _ _

theorem seedStep_nodupKeys {st : RecMap × List MSpec} (x : String × PRecord)
    (h : NoDupKeys st.1) : NoDupKeys (seedStep st x).1 := by
  unfold seedStep
  split
  · exact h
  · rename_i hnc
    dsimp only
    exact nodupKeys_append_of_not_contains h (Bool.eq_false_iff.mpr hnc)

theorem seedStep_wl_nodup {st : RecMap × List MSpec} (x : String × PRecord)
    (h : st.2.Nodup) : (seedStep st x).2.Nodup := by
  unfold seedStep
  split
  · exact h
  · dsimp only
    exact addDeps_nodup h

/-! ### Order independence: seedStep fold lemmas -/

theorem foldl_seedStep_fst_mono {L : List (String × PRecord)} :
    ∀ {st : RecMap × List MSpec} {k : Key}, containsKey st.1 k = true →
    containsKey (L.foldl seedStep st).1 k = true := by
  induction L with
  | nil => intro st k h; exact h
  | cons a as ih =>
    intro st k h
    exact ih (seedStep_fst_mono a h)

theorem foldl_seedStep_snd_mono {L : List (String × PRecord)} :
    ∀ {st : RecMap × List MSpec} {s : MSpec}, s ∈ st.2 →
    s ∈ (L.foldl seedStep st).2 := by
  induction L with
  | nil => intro st s h; exact h
  | cons a as ih =>
    intro st s h
    exact ih (seedStep_snd_mono a h)

theorem foldl_seedStep_fst_cases {L : List (String × PRecord)} :
    ∀ {st : RecMap × List MSpec} {p : Key × PRecord},
    p ∈ (L.foldl seedStep st).1 →
    p ∈ st.1 ∨ ∃ x ∈ L, p = ((x.1, x.2.fn), x.2) ∧
      containsKey st.1 (x.1, x.2.fn) = false := by
  induction L with
  | nil => intro st p h; exact Or.inl h
  | cons a as ih =>
    intro st p h
    rcases ih h with h1 | ⟨x, hx, hpx, hck⟩
    · rcases seedStep_fst_cases h1 with h2 | ⟨h2, h3⟩
      · exact Or.inl h2
      · exact Or.inr ⟨a, List.mem_cons_self _ _, h2, h3⟩
    · have hck0 : containsKey st.1 (x.1, x.2.fn) = false := by
        cases hc : containsKey st.1 (x.1, x.2.fn) with
        | false => rfl
        | true =>
          have h4 := seedStep_fst_mono a hc
          rw [h4] at hck
          exact Bool.noConfusion hck
      exact Or.inr ⟨x, List.mem_cons_of_mem _ hx, hpx, hck0⟩

theorem foldl_seedStep_snd_cases {L : List (String × PRecord)} :
    ∀ {st : RecMap × List MSpec} {s : MSpec},
    s ∈ (L.foldl seedStep st).2 →
    s ∈ st.2 ∨ ∃ x ∈ L, (∃ d ∈ x.2.depends, s = parseSpec d) ∧
      containsKey st.1 (x.1, x.2.fn) = false := by
  induction L with
  | nil => intro st s h; exact Or.inl h
  | cons a as ih =>
    intro st s h
    rcases ih h with h1 | ⟨x, hx, hdx, hck⟩
    · rcases seedStep_snd_cases h1 with h2 | ⟨h2, h3⟩
      · exact Or.inl h2
      · exact Or.inr ⟨a, List.mem_cons_self _ _, h2, h3⟩
    · have hck0 : containsKey st.1 (x.1, x.2.fn) = false := by
        cases hc : containsKey st.1 (x.1, x.2.fn) with
        | false => rfl
        | true =>
          have h4 := seedStep_fst_mono a hc
          rw [h4] at hck
          exact Bool.noConfusion hck
      exact Or.inr ⟨x, List.mem_cons_of_mem _ hx, hdx, hck0⟩

theorem foldl_seedStep_self_keys {L : List (String × PRecord)} :
    ∀ {st : RecMap × List MSpec}, ∀ x ∈ L,
    containsKey (L.foldl seedStep st).1 (x.1, x.2.fn) = true := by
  induction L with
  | nil => intro st x hx; cases hx
  | cons a as ih =>
    intro st x hx
    rw [List.foldl_cons]
    rcases List.mem_cons.mp hx with rfl | h2
    · exact foldl_seedStep_fst_mono (seedStep_self_key st x)
    · exact ih x h2

theorem foldl_seedStep_deps {L : List (String × PRecord)} :
    ∀ {st : RecMap × List MSpec} {p : Key × PRecord},
    p ∈ (L.foldl seedStep st).1 →
    p ∈ st.1 ∨ ∀ d ∈ p.2.depends, parseSpec d ∈ (L.foldl seedStep st).2 := by
  induction L with
  | nil => intro st p h; exact Or.inl h
  | cons a as ih =>
    intro st p h
    rcases ih h with h1 | h1
    · rcases seedStep_fst_cases h1 with h2 | ⟨h2, h3⟩
      · exact Or.inl h2
      · subst h2
        right
        intro d hd
        rw [List.foldl_cons]
        apply foldl_seedStep_snd_mono
        have heq : (seedStep st a).2 = addDeps st.2 a.2.depends := by
          unfold seedStep
          rw [if_neg (by simp [h3])]
        rw [heq]
        exact mem_addDeps_self _ hd
    · right
      intro d hd
      rw [List.foldl_cons]
      exact h1 d hd

theorem foldl_seedStep_nodupKeys {L : List (String × PRecord)} :
    ∀ {st : RecMap × List MSpec}, NoDupKeys st.1 →
    NoDupKeys (L.foldl seedStep st).1 := by
  induction L with
  | nil => intro st h; exact h
  | cons a as ih =>
    intro st h
    exact ih (seedStep_nodupKeys a h)

theorem foldl_seedStep_wl_nodup {L : List (String × PRecord)} :
    ∀ {st : RecMap × List MSpec}, st.2.Nodup →
    (L.foldl seedStep st).2.Nodup := by
  induction L with
  | nil => intro st h; exact h
  | cons a as ih =>
    intro st h
    exact ih (seedStep_wl_nodup a h)

/-! ### Order independence: the loop invariant -/

theorem processSpec_eq (spec : MSpec) :
    ∀ (sds : List SubdirData) (st : RecMap × List MSpec),
    processSpec sds spec st =
      ((indexPairs sds).filter fun x => spec.matches x.2).foldl seedStep st := by
  intro sds
  induction sds with
  | nil => intro st; rfl
  | cons sd rest ih =>
    intro st
    unfold processSpec at ih ⊢
    rw [List.foldl_cons, ih]
    unfold indexPairs
    rw [List.flatMap_cons, List.filter_append, List.foldl_append]
    congr 1
    rw [List.filter_map, List.foldl_map]
    rfl

theorem getD_mem_and_eraseIdx :
    ∀ (l : List MSpec) (i : Nat) (d : MSpec), i < l.length →
      l.getD i d ∈ l ∧ ∀ x ∈ l, x = l.getD i d ∨ x ∈ l.eraseIdx i := by
  intro l
  induction l with
  | nil =>
    intro i d h
    exact absurd h (Nat.not_lt_zero i)
  | cons a as ih =>
    intro i d h
    cases i with
    | zero =>
      rw [List.getD_cons_zero, List.eraseIdx_cons_zero]
      refine ⟨List.mem_cons_self _ _, ?_⟩
      intro x hx
      rcases List.mem_cons.mp hx with rfl | h2
      · exact Or.inl rfl
      · exact Or.inr h2
    | succ j =>
      rw [List.length_cons] at h
      have hj : j < as.length := Nat.lt_of_succ_lt_succ h
      obtain ⟨hmem, hrest⟩ := ih j d hj
      rw [List.getD_cons_succ, List.eraseIdx_cons_succ]
      refine ⟨List.mem_cons_of_mem _ hmem, ?_⟩
      intro x hx
      rcases List.mem_cons.mp hx with rfl | h2
      · exact Or.inr (List.mem_cons_self _ _)
      · rcases hrest x h2 with h3 | h3
        · exact Or.inl h3
        · exact Or.inr (List.mem_cons_of_mem _ h3)

theorem loopInv_step {sds : List SubdirData} {recs0 : RecMap} {wl0 : List MSpec}
    {recs : RecMap} {w : MSpec} {ws : List MSpec}
    (inv : LoopInv sds recs0 wl0 recs (w :: ws)) (i : Nat)
    (hi : i < (w :: ws).length) :
    LoopInv sds recs0 wl0
      (processSpec sds ((w :: ws).getD i w) (recs, (w :: ws).eraseIdx i)).1
      (processSpec sds ((w :: ws).getD i w) (recs, (w :: ws).eraseIdx i)).2 := by
  obtain ⟨hpop_mem, hpop_rest⟩ := getD_mem_and_eraseIdx (w :: ws) i w hi
  rw [processSpec_eq]
  have hLmem : ∀ x ∈ (indexPairs sds).filter
      (fun x => ((w :: ws).getD i w).matches x.2),
      x ∈ indexPairs sds ∧ ((w :: ws).getD i w).matches x.2 = true := by
    intro x hx
    rw [List.mem_filter] at hx
    exact hx
  have hReach : ReachS sds recs0 wl0 ((w :: ws).getD i w) :=
    inv.sound_wl _ hpop_mem
  have hrest_sub : ∀ x, x ∈ (w :: ws).eraseIdx i → x ∈ (w :: ws) := by
    intro x hx
    exact List.Sublist.mem hx (List.eraseIdx_sublist _ _)
  have hrec0_of_recs : ∀ k, containsKey recs k = false →
      containsKey recs0 k = false := by
    intro k hk
    cases hc : containsKey recs0 k with
    | false => rfl
    | true => rw [inv.mono k hc] at hk; exact Bool.noConfusion hk
  have hsat : Satur sds ((w :: ws).getD i w)
      (((indexPairs sds).filter (fun x => ((w :: ws).getD i w).matches x.2)).foldl
        seedStep (recs, (w :: ws).eraseIdx i)).1 := by
    intro sub r hmem hmatch
    have hxL : ((sub, r) : String × PRecord) ∈ (indexPairs sds).filter
        (fun x => ((w :: ws).getD i w).matches x.2) := by
      rw [List.mem_filter]
      exact ⟨hmem, hmatch⟩
    exact foldl_seedStep_self_keys _ hxL
  have hmono2 : ∀ k, containsKey recs k = true →
      containsKey (((indexPairs sds).filter
        (fun x => ((w :: ws).getD i w).matches x.2)).foldl
          seedStep (recs, (w :: ws).eraseIdx i)).1 k = true := by
    intro k hk
    exact foldl_seedStep_fst_mono hk
  refine ⟨?_, ?_, ?_, ?_, ?_, ?_, ?_⟩
  · intro k hk
    exact hmono2 k (inv.mono k hk)
  · intro p hp
    rcases foldl_seedStep_fst_cases hp with h1 | ⟨x, hx, hpx, hck⟩
    · exact inv.sound_recs p h1
    · right
      obtain ⟨hxi, hxm⟩ := hLmem x hx
      subst hpx
      exact ⟨⟨x, hxi, rfl, rfl⟩, hrec0_of_recs _ hck,
        (w :: ws).getD i w, hReach, hxm⟩
  · intro s2 hs2
    rcases foldl_seedStep_snd_cases hs2 with h1 | ⟨x, hx, ⟨d, hd, rfl⟩, hck⟩
    · exact inv.sound_wl s2 (hrest_sub s2 h1)
    · obtain ⟨hxi, hxm⟩ := hLmem x hx
      exact ReachS.step hReach hxi hxm (hrec0_of_recs _ hck) hd
  · intro s0 hs0
    rcases inv.compl_init s0 hs0 with h1 | h1
    · rcases hpop_rest s0 h1 with h3 | h3
      · rw [h3]
        exact Or.inr hsat
      · exact Or.inl (foldl_seedStep_snd_mono h3)
    · exact Or.inr (satur_mono h1 hmono2)
  · intro p hp hk0 d hd
    rcases foldl_seedStep_deps hp with h1 | h1
    · rcases inv.compl_deps p h1 hk0 d hd with h2 | h2
      · rcases hpop_rest _ h2 with h3 | h3
        · rw [h3]
          exact Or.inr hsat
        · exact Or.inl (foldl_seedStep_snd_mono h3)
      · exact Or.inr (satur_mono h2 hmono2)
    · exact Or.inl (h1 d hd)
  · exact foldl_seedStep_nodupKeys inv.nodup
  · exact foldl_seedStep_wl_nodup
      (List.Nodup.sublist (List.eraseIdx_sublist _ _) inv.wl_nodup)

theorem closureLoop_inv :
    ∀ (fuel : Nat) (pick : List MSpec → Nat) (sds : List SubdirData)
      (recs0 : RecMap) (wl0 : List MSpec) (recs : RecMap) (wl : List MSpec)
      (out : RecMap),
      LoopInv sds recs0 wl0 recs wl →
      closureLoop pick sds fuel recs wl = some out →
      LoopInv sds recs0 wl0 out [] := by
  intro fuel
  induction fuel with
  | zero =>
    intro pick sds recs0 wl0 recs wl out hinv hout
    unfold closureLoop at hout
    split at hout
    · rename_i hempty
      rw [List.isEmpty_iff] at hempty
      subst hempty
      cases hout
      exact hinv
    · exact Option.noConfusion hout
  | succ n ih =>
    intro pick sds recs0 wl0 recs wl out hinv hout
    cases wl with
    | nil =>
      have hrec : out = recs := by
        rw [show closureLoop pick sds (n + 1) recs [] = some recs from rfl] at hout
        exact (Option.some.inj hout).symm
      subst hrec
      exact hinv
    | cons w ws =>
      rw [closureLoop_succ] at hout
      exact ih pick sds recs0 wl0 _ _ out
        (loopInv_step hinv _ (Nat.mod_lt _ (by simp))) hout

theorem loopInv_init (sds : List SubdirData) (recs0 : RecMap) (wl0 : List MSpec)
    (h0n : NoDupKeys recs0) (h0wl : wl0.Nodup) :
    LoopInv sds recs0 wl0 recs0 wl0 := by
  refine ⟨fun k hk => hk, fun p hp => Or.inl hp, fun s hs => ReachS.base hs,
    fun s hs => Or.inl hs, ?_, h0n, h0wl⟩
  intro p hp hk0
  rw [containsKey_of_mem hp] at hk0
  exact Bool.noConfusion hk0

theorem reachS_satur_final {sds : List SubdirData} {recs0 : RecMap}
    {wl0 : List MSpec} {out : RecMap} (hfun : KeyFunctional sds)
    (hinv : LoopInv sds recs0 wl0 out []) :
    ∀ s, ReachS sds recs0 wl0 s → Satur sds s out := by
  intro s hs
  induction hs with
  | base h =>
    rcases hinv.compl_init _ h with h1 | h1
    · cases h1
    · exact h1
  | step hs2 hmem hmatch hk0 hd ihs =>
    rename_i s2 sub r d
    have hck := ihs sub r hmem hmatch
    obtain ⟨r2, hr2⟩ := containsKey_exists_mem hck
    rcases hinv.sound_recs _ hr2 with h1 | ⟨hie, hk0b, -⟩
    · have hc := containsKey_of_mem h1
      rw [hk0] at hc
      exact Bool.noConfusion hc
    · have hr2r : r2 = r := by
        obtain ⟨q, hq, hqv, hqk⟩ := hie
        have hqk2 : ((q.1, q.2.fn) : Key) = (sub, r.fn) := hqk
        have := hfun q hq (sub, r) hmem hqk2
        rw [hqv] at this
        exact this
      have hk0b2 : containsKey recs0 (sub, r.fn) = false := hk0b
      intro sub2 rr hmem2 hmatch2
      rcases hinv.compl_deps _ hr2 hk0b2 d (by rw [hr2r]; exact hd) with h2 | h2
      · cases h2
      · exact h2 sub2 rr hmem2 hmatch2

theorem closure_lookup_eq {sds : List SubdirData} {recs0 : RecMap}
    {wl0 : List MSpec} {out1 out2 : RecMap} (hfun : KeyFunctional sds)
    (h1 : LoopInv sds recs0 wl0 out1 []) (h2 : LoopInv sds recs0 wl0 out2 [])
    (h0n : NoDupKeys recs0) :
    ∀ k, lookupRec out1 k = lookupRec out2 k := by
  have hkeys : ∀ (oA oB : RecMap), LoopInv sds recs0 wl0 oA [] →
      LoopInv sds recs0 wl0 oB [] →
      ∀ k, containsKey oA k = true → containsKey oB k = true := by
    intro oA oB hA hB k hk
    obtain ⟨r, hr⟩ := containsKey_exists_mem hk
    rcases hA.sound_recs _ hr with hm | ⟨hie, -, s, hsR, hsm⟩
    · exact hB.mono k (containsKey_of_mem hm)
    · obtain ⟨q, hq, hqv, hqk⟩ := hie
      have hsat := reachS_satur_final hfun hB s hsR
      have hck := hsat q.1 q.2 hq (by rw [hqv]; exact hsm)
      have hqk2 : ((q.1, q.2.fn) : Key) = k := hqk
      rw [hqk2] at hck
      exact hck
  intro k
  cases hc1 : containsKey out1 k with
  | false =>
    have hc2 : containsKey out2 k = false := by
      cases hc2 : containsKey out2 k with
      | false => rfl
      | true =>
        rw [hkeys out2 out1 h2 h1 k hc2] at hc1
        exact Bool.noConfusion hc1
    rw [lookupRec_eq_none_of_not_contains hc1,
      lookupRec_eq_none_of_not_contains hc2]
  | true =>
    have hc2 := hkeys out1 out2 h1 h2 k hc1
    obtain ⟨r1, hr1⟩ := containsKey_exists_mem hc1
    obtain ⟨r2, hr2⟩ := containsKey_exists_mem hc2
    rw [lookupRec_of_mem_nodup h1.nodup hr1, lookupRec_of_mem_nodup h2.nodup hr2]
    congr 1
    rcases h1.sound_recs _ hr1 with hm1 | ⟨hie1, hk01, -⟩
    · rcases h2.sound_recs _ hr2 with hm2 | ⟨hie2, hk02, -⟩
      · exact nodup_val_unique h0n hm1 hm2
      · have hc0 : containsKey recs0 k = true := containsKey_of_mem hm1
        have hk02b : containsKey recs0 k = false := hk02
        rw [hc0] at hk02b
        exact Bool.noConfusion hk02b
    · rcases h2.sound_recs _ hr2 with hm2 | ⟨hie2, hk02, -⟩
      · have hc0 : containsKey recs0 k = true := containsKey_of_mem hm2
        have hk01b : containsKey recs0 k = false := hk01
        rw [hc0] at hk01b
        exact Bool.noConfusion hk01b
      · obtain ⟨q1, hq1, hv1, hk1⟩ := hie1
        obtain ⟨q2, hq2, hv2, hk2⟩ := hie2
        have hk1b : ((q1.1, q1.2.fn) : Key) = k := hk1
        have hk2b : ((q2.1, q2.2.fn) : Key) = k := hk2
        have := hfun q1 hq1 q2 hq2 (by rw [hk1b, hk2b])
        rw [hv1, hv2] at this
        exact this

theorem mem_keepRecordsD_indexPairs {sds : List SubdirData} {specs : List MSpec}
    {after? before? : Option Int} {x : String × PRecord}
    (h : x ∈ keepRecordsD sds specs after? before?) : x ∈ indexPairs sds := by
  by_cases hne : specs.isEmpty = true
  · rw [List.isEmpty_iff] at hne
    subst hne
    by_cases hb : (before?.isSome || after?.isSome) = true
    · rw [keepRecordsD_eq_window sds after? before? hb] at h
      simp only [List.mem_flatMap, List.mem_map, List.mem_filter] at h
      obtain ⟨sd, hsd, r, ⟨hr, -⟩, rfl⟩ := h
      exact mem_indexPairs hsd hr
    · exfalso
      unfold keepRecordsD keepRecordsE at h
      rw [Bool.eq_false_iff.mpr hb] at h
      simp [Except.toOption] at h
  · rw [keepRecordsD_eq_specs sds specs after? before?
      (Bool.eq_false_iff.mpr hne)] at h
    simp only [List.mem_flatMap, List.mem_map, List.mem_filter] at h
    obtain ⟨spec, -, sd, hsd, r, ⟨⟨hr, -⟩, -⟩, rfl⟩ := h
    exact mem_indexPairs hsd hr

theorem seedTrees_inv (sds : List SubdirData) (treeSpecs : List MSpec)
    (after? before? : Option Int) :
    (∀ p ∈ (seedTrees sds treeSpecs after? before?).1, IsIndexEntry sds p.1 p.2) ∧
    NoDupKeys (seedTrees sds treeSpecs after? before?).1 ∧
    (seedTrees sds treeSpecs after? before?).2.Nodup := by
  unfold seedTrees
  refine ⟨?_, foldl_seedStep_nodupKeys nodupKeys_nil,
    foldl_seedStep_wl_nodup List.nodup_nil⟩
  intro p hp
  rcases foldl_seedStep_fst_cases hp with h1 | ⟨x, hx, hpx, -⟩
  · cases h1
  · subst hpx
    exact ⟨x, mem_keepRecordsD_indexPairs hx, rfl, rfl⟩

/-! ### Order independence: lifting through the remaining phases -/

theorem containsKey_eq_false_of_not_mem_keys {m : RecMap} {k : Key}
    (h : k ∉ m.map fun p => p.1) : containsKey m k = false := by
  unfold containsKey
  rw [List.any_eq_false]
  intro p hp hpk
  rw [beq_iff_eq] at hpk
  exact h (hpk ▸ List.mem_map_of_mem _ hp)

theorem containsKey_filter_le {g : Key × PRecord → Bool} {m : RecMap} {k : Key}
    (h : containsKey (m.filter g) k = true) : containsKey m k = true := by
  obtain ⟨r, hr⟩ := containsKey_exists_mem h
  rw [List.mem_filter] at hr
  exact containsKey_of_mem hr.1

theorem lookupRec_cons (a : Key × PRecord) (m : RecMap) (k : Key) :
    lookupRec (a :: m) k = if a.1 = k then some a.2 else lookupRec m k := by
  unfold lookupRec
  by_cases h : a.1 = k
  · rw [@List.find?_cons_of_pos (Key × PRecord) (fun p => p.1 == k) a m
      (by simp [h]), if_pos h]
    rfl
  · rw [@List.find?_cons_of_neg (Key × PRecord) (fun p => p.1 == k) a m
      (by simp [h]), if_neg h]

theorem lookupRec_filter_record (f : PRecord → Bool) :
    ∀ {m : RecMap}, NoDupKeys m → ∀ k,
    lookupRec (m.filter fun kr => f kr.2) k =
      match lookupRec m k with
      | some r => if f r then some r else none
      | none => none := by
  intro m
  induction m with
  | nil => intro hm k; rfl
  | cons a as ih =>
    intro hm k
    unfold NoDupKeys at hm
    rw [List.map_cons, List.nodup_cons] at hm
    obtain ⟨hknot, htail⟩ := hm
    rw [List.filter_cons]
    by_cases hf : f a.2 = true
    · rw [if_pos hf, lookupRec_cons, lookupRec_cons]
      by_cases hk : a.1 = k
      · rw [if_pos hk, if_pos hk]
        simp [hf]
      · rw [if_neg hk, if_neg hk]
        exact ih htail k
    · rw [if_neg hf]
      by_cases hk : a.1 = k
      · have hnotk : containsKey as k = false :=
          containsKey_eq_false_of_not_mem_keys (by rw [← hk]; exact hknot)
        have hcf : containsKey (as.filter fun kr => f kr.2) k = false := by
          cases hc : containsKey (as.filter fun kr => f kr.2) k with
          | false => rfl
          | true =>
            rw [containsKey_filter_le hc] at hnotk
            exact Bool.noConfusion hnotk
        rw [lookupRec_cons, if_pos hk, lookupRec_eq_none_of_not_contains hcf]
        simp [hf]
      · rw [lookupRec_cons, if_neg hk]
        exact ih htail k

theorem nodupKeys_filter {g : Key × PRecord → Bool} {m : RecMap}
    (h : NoDupKeys m) : NoDupKeys (m.filter g) := by
  unfold NoDupKeys at h ⊢
  exact List.Nodup.sublist (List.Sublist.map _ (List.filter_sublist m)) h

theorem lookupRec_filter_ext (f : PRecord → Bool) {m1 m2 : RecMap}
    (h1 : NoDupKeys m1) (h2 : NoDupKeys m2)
    (he : ∀ k, lookupRec m1 k = lookupRec m2 k) :
    ∀ k, lookupRec (m1.filter fun kr => f kr.2) k =
         lookupRec (m2.filter fun kr => f kr.2) k := by
  intro k
  rw [lookupRec_filter_record f h1 k, lookupRec_filter_record f h2 k, he]

theorem nodupKeys_insertIfAbsent {m : RecMap} (k : Key) (r : PRecord)
    (h : NoDupKeys m) : NoDupKeys (insertIfAbsent m k r) := by
  unfold insertIfAbsent
  split
  · exact h
  · rename_i hnc
    exact nodupKeys_append_of_not_contains h (Bool.eq_false_iff.mpr hnc)

theorem lookupRec_insertIfAbsent_ext {m1 m2 : RecMap}
    (he : ∀ k, lookupRec m1 k = lookupRec m2 k) (k0 : Key) (r0 : PRecord) :
    ∀ k, lookupRec (insertIfAbsent m1 k0 r0) k =
         lookupRec (insertIfAbsent m2 k0 r0) k := by
  intro k
  have hck : containsKey m1 k0 = containsKey m2 k0 := by
    rw [containsKey_eq_isSome_lookup, containsKey_eq_isSome_lookup, he]
  unfold insertIfAbsent
  by_cases hc : containsKey m2 k0 = true
  · rw [if_pos (by rw [hck]; exact hc), if_pos hc]
    exact he k
  · rw [if_neg (by rw [hck]; exact hc), if_neg hc]
    rw [lookupRec_append, lookupRec_append, he]

theorem foldl_insert_ext {l : List (String × PRecord)} :
    ∀ {m1 m2 : RecMap}, (∀ k, lookupRec m1 k = lookupRec m2 k) →
    ∀ k, lookupRec
        (l.foldl (fun m sr => insertIfAbsent m (sr.1, sr.2.fn) sr.2) m1) k =
      lookupRec
        (l.foldl (fun m sr => insertIfAbsent m (sr.1, sr.2.fn) sr.2) m2) k := by
  induction l with
  | nil => intro m1 m2 he k; exact he k
  | cons a as ih =>
    intro m1 m2 he k
    rw [List.foldl_cons, List.foldl_cons]
    exact ih (lookupRec_insertIfAbsent_ext he _ _) k

theorem foldl_insert_nodupKeys {l : List (String × PRecord)} :
    ∀ {m : RecMap}, NoDupKeys m →
    NoDupKeys (l.foldl (fun m sr => insertIfAbsent m (sr.1, sr.2.fn) sr.2) m) := by
  induction l with
  | nil => intro m h; exact h
  | cons a as ih =>
    intro m h
    rw [List.foldl_cons]
    exact ih (nodupKeys_insertIfAbsent _ _ h)

theorem nodupKeys_dictInsert {m : RecMap} (k : Key) (r : PRecord)
    (h : NoDupKeys m) : NoDupKeys (dictInsert m k r) := by
  unfold dictInsert
  split
  · unfold NoDupKeys at h ⊢
    have hmap : (m.map (fun p => if p.1 == k then (k, r) else p)).map
        (fun p => p.1) = m.map (fun p => p.1) := by
      rw [List.map_map]
      apply List.map_congr_left
      intro a ha
      by_cases hak : (a.1 == k) = true
      · show (if a.1 == k then (k, r) else a).1 = a.1
        rw [if_pos hak]
        rw [beq_iff_eq] at hak
        exact hak.symm
      · show (if a.1 == k then (k, r) else a).1 = a.1
        rw [if_neg (by simp [hak])]
    rw [hmap]
    exact h
  · rename_i hnc
    exact nodupKeys_append_of_not_contains h (Bool.eq_false_iff.mpr hnc)

theorem nodupKeys_fullIndex (sds : List SubdirData) :
    NoDupKeys (fullIndex sds) := by
  unfold fullIndex
  generalize indexPairs sds = l
  have hgen : ∀ (l : List (String × PRecord)) (m : RecMap), NoDupKeys m →
      NoDupKeys (l.foldl (fun m sr => dictInsert m (sr.1, sr.2.fn) sr.2) m) := by
    intro l
    induction l with
    | nil => intro m h; exact h
    | cons a as ih =>
      intro m h
      rw [List.foldl_cons]
      exact ih _ (nodupKeys_dictInsert _ _ h)
  exact hgen l [] nodupKeys_nil

theorem closureGetD_nodup (pick : List MSpec → Nat) (sds : List SubdirData)
    (treeS : List MSpec) (after? before? : Option Int) :
    NoDupKeys ((closureLoop pick sds
        (closureFuel sds (seedTrees sds treeS after? before?).1
          (seedTrees sds treeS after? before?).2)
        (seedTrees sds treeS after? before?).1
        (seedTrees sds treeS after? before?).2).getD
      (seedTrees sds treeS after? before?).1) := by
  obtain ⟨-, hn0, hw0⟩ := seedTrees_inv sds treeS after? before?
  obtain ⟨o, ho⟩ := Option.isSome_iff_exists.mp
    (closureLoop_isSome_of_fuel _ pick sds _ _ (le_refl _))
  rw [ho, Option.getD_some]
  exact (closureLoop_inv _ pick sds _ _ _ _ o
    (loopInv_init sds _ _ hn0 hw0) ho).nodup

theorem treeClosure_nodupKeys (pick : List MSpec → Nat) (sds : List SubdirData)
    (treeS : List MSpec) (after? before? : Option Int) :
    NoDupKeys (treeClosure pick sds treeS after? before?) := by
  unfold treeClosure
  split
  · exact nodupKeys_nil
  · exact closureGetD_nodup pick sds treeS after? before?

theorem treeClosure_eq_nil {treeS : List MSpec} (pick : List MSpec → Nat)
    (sds : List SubdirData) (after? before? : Option Int)
    (htree : treeS.isEmpty = true) :
    treeClosure pick sds treeS after? before? = [] := by
  unfold treeClosure
  rw [htree]
  rfl

theorem treeClosure_eq_some {treeS : List MSpec} (pick : List MSpec → Nat)
    (sds : List SubdirData) (after? before? : Option Int) {o : RecMap}
    (htreeF : treeS.isEmpty = false)
    (ho : closureLoop pick sds
        (closureFuel sds (seedTrees sds treeS after? before?).1
          (seedTrees sds treeS after? before?).2)
        (seedTrees sds treeS after? before?).1
        (seedTrees sds treeS after? before?).2 = some o) :
    treeClosure pick sds treeS after? before? = o := by
  unfold treeClosure
  rw [htreeF, ho]
  rfl

theorem seedPhase_nodupKeys (pick : List MSpec → Nat) (sds : List SubdirData)
    (keepS treeS : List MSpec) (after? before? : Option Int) :
    NoDupKeys (seedPhase pick sds keepS treeS after? before?) := by
  unfold seedPhase
  split
  · split
    · unfold addKeepSlice
      apply foldl_insert_nodupKeys
      unfold reconcileKeep
      exact nodupKeys_filter (treeClosure_nodupKeys pick sds treeS after? before?)
    · unfold reconcileKeep
      exact nodupKeys_filter (treeClosure_nodupKeys pick sds treeS after? before?)
  · exact nodupKeys_fullIndex sds

theorem seedPhase_lookup_ext (p q : List MSpec → Nat) (sds : List SubdirData)
    (keepS treeS : List MSpec) (after? before? : Option Int)
    (hfun : KeyFunctional sds) :
    ∀ k, lookupRec (seedPhase p sds keepS treeS after? before?) k =
         lookupRec (seedPhase q sds keepS treeS after? before?) k := by
  by_cases htree : treeS.isEmpty = true
  · have heq : seedPhase p sds keepS treeS after? before? =
        seedPhase q sds keepS treeS after? before? := by
      unfold seedPhase
      rw [treeClosure_eq_nil p sds after? before? htree,
        treeClosure_eq_nil q sds after? before? htree]
    intro k
    rw [heq]
  · have htreeF : treeS.isEmpty = false := Bool.eq_false_iff.mpr htree
    obtain ⟨hentries, hn0, hw0⟩ := seedTrees_inv sds treeS after? before?
    obtain ⟨o1, ho1⟩ := Option.isSome_iff_exists.mp
      (closureLoop_isSome_of_fuel _ p sds _ _ (le_refl _))
    obtain ⟨o2, ho2⟩ := Option.isSome_iff_exists.mp
      (closureLoop_isSome_of_fuel _ q sds _ _ (le_refl _))
    have hinv1 := closureLoop_inv _ p sds _ _ _ _ o1
      (loopInv_init sds _ _ hn0 hw0) ho1
    have hinv2 := closureLoop_inv _ q sds _ _ _ _ o2
      (loopInv_init sds _ _ hn0 hw0) ho2
    have hext0 := closure_lookup_eq hfun hinv1 hinv2 hn0
    intro k
    unfold seedPhase
    rw [htreeF, treeClosure_eq_some p sds after? before? htreeF ho1,
      treeClosure_eq_some q sds after? before? htreeF ho2]
    show lookupRec
        (if (!keepS.isEmpty || after?.isSome || before?.isSome) = true then
          addKeepSlice sds keepS after? before?
            (reconcileKeep (namesToKeep keepS treeS) o1)
        else reconcileKeep (namesToKeep keepS treeS) o1) k =
      lookupRec
        (if (!keepS.isEmpty || after?.isSome || before?.isSome) = true then
          addKeepSlice sds keepS after? before?
            (reconcileKeep (namesToKeep keepS treeS) o2)
        else reconcileKeep (namesToKeep keepS treeS) o2) k
    by_cases hc2 : (!keepS.isEmpty || after?.isSome || before?.isSome) = true
    · rw [if_pos hc2, if_pos hc2]
      unfold addKeepSlice
      apply foldl_insert_ext
      intro k2
      unfold reconcileKeep
      exact lookupRec_filter_ext
        (fun r => match lookupName (namesToKeep keepS treeS) r.name with
          | some s => s.matches r
          | none => true)
        hinv1.nodup hinv2.nodup hext0 k2
    · rw [if_neg hc2, if_neg hc2]
      unfold reconcileKeep
      exact lookupRec_filter_ext
        (fun r => match lookupName (namesToKeep keepS treeS) r.name with
          | some s => s.matches r
          | none => true)
        hinv1.nodup hinv2.nodup hext0 k

/-! ### Claim theorems -/

/-- C1: every record in the working set returned by the reducer matches
no remove spec, none of its dependency strings matches any
depends-removal pattern under the glob matcher, and every prune spec
sharing its name matches it; the removal phases run last over the kept
set, so removal overrides every keep, tree-keep and prune decision. -/
theorem result_respects_removals
    (pick : List MSpec → Nat) (fnm : String → String → Bool)
    (sds : List SubdirData)
    (keep remove dependsRm prune trees : List String)
    (after? before? : Option Int) (k : Key) (r : PRecord)
    (h : lookupRec
      (reduceIndexP pick fnm sds keep remove dependsRm prune trees after? before?)
      k = some r) :
    (∀ s ∈ remove, (parseSpec s).matches r = false) ∧
    (∀ pat ∈ dependsRm, ∀ d ∈ r.depends, fnm d pat = false) ∧
    (∀ p ∈ prune, (parseSpec p).name = r.name → (parseSpec p).matches r = true) := by
  have hmem := lookupRec_mem h
  simp only [reduceIndexP, applyRemovals] at hmem
  rw [List.mem_filter] at hmem
  obtain ⟨-, hpred⟩ := hmem
  rw [Bool.not_eq_true'] at hpred
  unfold markedForRemoval at hpred
  rw [Bool.or_eq_false_iff] at hpred
  obtain ⟨hpr, hdep⟩ := hpred
  rw [Bool.or_eq_false_iff] at hpr
  obtain ⟨hprune, hremove⟩ := hpr
  rw [List.any_eq_false] at hprune hremove hdep
  refine ⟨?_, ?_, ?_⟩
  · intro s hs
    exact Bool.eq_false_iff.mpr (hremove (parseSpec s) (List.mem_map_of_mem _ hs))
  · intro pat hpat d hd
    have h2 : (r.depends.any fun d2 => fnm d2 pat) = false :=
      Bool.eq_false_iff.mpr (hdep pat hpat)
    rw [List.any_eq_false] at h2
    exact Bool.eq_false_iff.mpr (h2 d hd)
  · intro p hp hname
    have hcon := hprune (parseSpec p) (List.mem_map_of_mem _ hp)
    cases hmt : (parseSpec p).matches r with
    | true => rfl
    | false => exact absurd (by simp [hname, hmt]) hcon

/-- Witness for C1 on a concrete one-record reduction. -/
theorem result_respects_removals_witness :
    (∀ s ∈ ["pkgz"], (parseSpec s).matches qA1 = false) ∧
    (∀ pat ∈ ([] : List String), ∀ d ∈ qA1.depends, fnmatchLit d pat = false) ∧
    (∀ p ∈ ["pkga ==1"], (parseSpec p).name = qA1.name →
      (parseSpec p).matches qA1 = true) :=
  result_respects_removals pick0 fnmatchLit [sdQ] ["pkga ==1"] ["pkgz"] []
    ["pkga ==1"] [] none none ("s", "pkga-1") qA1 (by decide)

/-- C2 is refuted: with keep specs pkga ==1 and pkga ==2 on an index
holding both versions, the final working set keeps record pkga-1
although its name equals the name of keep spec pkga ==2 and it fails
that match; the keep slice is inserted after reconciliation runs and
is never re-checked. -/
theorem keep_name_violation_in_result :
    lookupRec (reduceIndex [sdQ] ["pkga ==1", "pkga ==2"] [] [] [] [] none none)
      ("s", "pkga-1") = some qA1 ∧
    (parseSpec "pkga ==2").name = qA1.name ∧
    (parseSpec "pkga ==2").matches qA1 = false := by decide

/-- C2 (amended): the reconciliation pass enforces the claimed property
for the records present when it runs, i.e. the tree-closure output:
after reconciliation no surviving record whose name has an entry in
names_to_keep fails that (last-listed) spec; records inserted later by
the keep or time-window slice are not subject to this check. -/
theorem reconcile_enforces_names
    (ntk : List (String × MSpec)) (recs : RecMap) (k : Key) (r : PRecord) (s : MSpec)
    (hmem : (k, r) ∈ reconcileKeep ntk recs)
    (hname : lookupName ntk r.name = some s) :
    s.matches r = true := by
  unfold reconcileKeep at hmem
  rw [List.mem_filter] at hmem
  obtain ⟨-, hpred⟩ := hmem
  have hpred2 : (match lookupName ntk r.name with
    | some s => s.matches r
    | none => true) = true := hpred
  rw [hname] at hpred2
  exact hpred2

/-- Witness for the amended C2 on a concrete reconciliation. -/
theorem reconcile_enforces_names_witness :
    (parseSpec "pkga ==1").matches qA1 = true :=
  reconcile_enforces_names [("pkga", parseSpec "pkga ==1")]
    [(("s", "pkga-1"), qA1)] ("s", "pkga-1") qA1 (parseSpec "pkga ==1")
    (by decide) (by decide)

/-- C3 is refuted: on the cycle index with tree spec pkga ==1 the
record pkgc-1 is in the result, although it is reachable only through
pkga-2, which matches the cyclic dependency string pkga but fails the
original tree spec; had the pending spec been merged (tightened) with
the tree spec before being enqueued, pkga-2 would never have been
expanded and pkgc-1 never added.  The reduction also returns only the
record map: no Diagnostic value exists to be returned. -/
theorem cycle_no_merge_no_diagnostic :
    lookupRec (reduceIndex [sdCyc] [] [] [] [] ["pkga ==1"] none none)
      ("s", "pkgc-1") = some pkgC1 ∧
    (parseSpec "pkga ==1").matches pkgA2 = false := by decide

/-- C3 (amended): the engine records no Diagnostic and enqueues cyclic
dependency specs unmerged; the over-inclusion this causes is corrected
afterwards by the reconciliation pass, and the pass terminates
non-fatally on the cyclic index: the result is exactly pkga-1, pkgb-1
and pkgc-1, with the cycle overflow pkga-2 dropped. -/
theorem cycle_overflow_reconciled :
    reduceIndex [sdCyc] [] [] [] [] ["pkga ==1"] none none =
      [(("s", "pkga-1"), pkgA1), (("s", "pkgb-1"), pkgB1),
        (("s", "pkgc-1"), pkgC1)] := by decide

/-- C4 is refuted: with a tree spec, both bounds and no keep specs, the
record pkgx-1 is in the final working set although it matches no tree
spec and is reachable from no seed: the keep slice with empty keep
specs falls back to the standalone time-window scan. -/
theorem window_slice_despite_trees :
    lookupRec (reduceIndex [sdW] [] [] [] [] ["pkga"] (some 50) (some 250))
      ("s", "pkgx-1") = some wX ∧
    (parseSpec "pkga").matches wX = false := by decide

/-- C4 (amended): whenever at least one bound is given and keep_specs
is empty, the keep slice of the seed phase degenerates to the
standalone window scan, so every index record inside the window is
present after the seed phase even when tree_keep_specs are supplied. -/
theorem window_slice_when_no_keeps
    (pick : List MSpec → Nat) (sds : List SubdirData) (treeS : List MSpec)
    (after? before? : Option Int) (sd : SubdirData) (r : PRecord)
    (hsd : sd ∈ sds) (hr : r ∈ sd.records)
    (hw : inWindow after? before? r = true)
    (hb : (before?.isSome || after?.isSome) = true) :
    containsKey (seedPhase pick sds [] treeS after? before?) (sd.subdir, r.fn) = true := by
  have hmem := window_mem_keepRecordsD hsd hr hw hb
  simp only [seedPhase]
  split
  · split
    · unfold addKeepSlice
      exact containsKey_foldl_insert_of_mem _ _ (sd.subdir, r) hmem
    · rename_i hcond
      exfalso
      apply hcond
      rcases Bool.or_eq_true_iff.mp hb with h | h <;> simp [h]
  · rename_i hcond
    exfalso
    apply hcond
    rcases Bool.or_eq_true_iff.mp hb with h | h <;> simp [h]

/-- Witness for the amended C4: the in-window record pkgx-1 is present
after the seed phase of the concrete tree-plus-bounds reduction. -/
theorem window_slice_when_no_keeps_witness :
    containsKey (seedPhase pick0 [sdW] [] [parseSpec "pkga"] (some 50) (some 250))
      ("s", "pkgx-1") = true :=
  window_slice_when_no_keeps pick0 [sdW] [parseSpec "pkga"] (some 50) (some 250)
    sdW wX (by decide) (by decide) (by decide) (by decide)

/-- C5: the time window is exclusive on both ends: every record yielded
by the record filter satisfies after < timestamp when after is given
and timestamp < before when before is given; and on the index with
timestamps 100, 200 and 300 under after 150 and before 250 the
reduction returns exactly the record at timestamp 200. -/
theorem window_strictly_exclusive :
    (∀ (sds : List SubdirData) (specs : List MSpec) (after? before? : Option Int)
        (sub : String) (r : PRecord),
      (sub, r) ∈ keepRecordsD sds specs after? before? →
      (∀ a, after? = some a → a < tsOf r) ∧ (∀ b, before? = some b → tsOf r < b)) ∧
    reduceIndex [sdT] [] [] [] [] [] (some 150) (some 250) =
      [(("s", "p2-1"), t200)] := by
  constructor
  · intro sds specs a? b? sub r hmem
    have hw := inWindow_of_mem_keepRecordsD hmem
    unfold inWindow at hw
    rw [Bool.and_eq_true] at hw
    obtain ⟨hbef, haf⟩ := hw
    constructor
    · intro a ha
      subst ha
      simpa using haf
    · intro b hb2
      subst hb2
      simpa using hbef
  · decide

/-- Witness for C5 at the record with timestamp 200 under the bounds
150 and 250. -/
theorem window_strictly_exclusive_witness :
    (∀ a, (some 150 : Option Int) = some a → a < tsOf t200) ∧
    (∀ b, (some 250 : Option Int) = some b → tsOf t200 < b) :=
  window_strictly_exclusive.1 [sdT] [] (some 150) (some 250) "s" t200 (by decide)

/-- C6 is refuted: with only a before bound active, the record without
a timestamp is yielded by the time-window filter and survives to the
final working set, because conda reads a missing timestamp as 0 and
0 < before. -/
theorem no_timestamp_kept_with_before_only :
    keepRecordsD [sdN] [] none (some 250) = [("s", noTs)] ∧
    reduceIndex [sdN] [] [] [] [] [] none (some 250) =
      [(("s", "pkgn-1"), noTs)] ∧
    noTs.timestamp = none := by decide

/-- C6 (amended): a record with no timestamp is treated as timestamp 0,
so it is excluded whenever an after bound with a nonnegative value is
active; a before-only bound does not exclude it. -/
theorem no_timestamp_excluded_by_after
    (sds : List SubdirData) (specs : List MSpec) (a : Int) (before? : Option Int)
    (sub : String) (r : PRecord) (hts : r.timestamp = none) (ha : 0 ≤ a) :
    (sub, r) ∉ keepRecordsD sds specs (some a) before? := by
  intro hmem
  have hw := inWindow_of_mem_keepRecordsD hmem
  unfold inWindow at hw
  rw [Bool.and_eq_true] at hw
  obtain ⟨-, haf⟩ := hw
  have hlt : a < tsOf r := by simpa using haf
  rw [tsOf, hts] at hlt
  simp only [Option.getD_none] at hlt
  omega

/-- Witness for the amended C6: the record without a timestamp is not
yielded under the after bound 150. -/
theorem no_timestamp_excluded_by_after_witness :
    ("s", noTs) ∉ keepRecordsD [sdN] [] (some 150) none :=
  no_timestamp_excluded_by_after [sdN] [] 150 none "s" noTs rfl (by decide)

/-- C7: with no filter supplied, the CLI layer refuses to run with the
at-least-one-filter user error; the result is this error for every
index provider, i.e. the provider is never consulted and the reduction
does not succeed as a no-op. -/
theorem no_filters_refused (pick : List MSpec → Nat)
    (fetch : Unit → List SubdirData) (fnm : String → String → Bool) :
    executeModel pick fetch fnm none none [] [] [] [] =
      .error "Please provide at least one filter." := rfl

/-- C8: the closure-expansion worklist loop terminates for every finite
index, every pop order and every starting state, dependency cycles
included: run with the fuel computed by closureFuel (pending specs plus
the dependency count of not-yet-visited index entries, a bound that
shrinks with the monotonically growing visited-key set), the loop
always drains to a result instead of exhausting its fuel. -/
theorem closure_loop_terminates (pick : List MSpec → Nat) (sds : List SubdirData)
    (recs : RecMap) (wl : List MSpec) :
    (closureLoop pick sds (closureFuel sds recs wl) recs wl).isSome = true :=
  closureLoop_isSome_of_fuel (closureFuel sds recs wl) pick sds recs wl (le_refl _)

/-- C9: the reducer is deterministic and pure in its explicit inputs:
under the Record Key invariant of the data model (two index entries
with one key hold one record), reductions run with any two worklist pop
orders agree on every key of the working set, so two invocations on the
same index and filters yield identical working sets; no state outside
the call is consulted. -/
theorem reduce_deterministic (p q : List MSpec → Nat)
    (fnm : String → String → Bool) (sds : List SubdirData)
    (keep remove dependsRm prune trees : List String)
    (after? before? : Option Int) (hfun : KeyFunctional sds) (k : Key) :
    lookupRec
      (reduceIndexP p fnm sds keep remove dependsRm prune trees after? before?)
      k =
    lookupRec
      (reduceIndexP q fnm sds keep remove dependsRm prune trees after? before?)
      k := by
  have hext := seedPhase_lookup_ext p q sds (keep.map parseSpec)
    (trees.map parseSpec) after? before? hfun
  have hn1 := seedPhase_nodupKeys p sds (keep.map parseSpec)
    (trees.map parseSpec) after? before?
  have hn2 := seedPhase_nodupKeys q sds (keep.map parseSpec)
    (trees.map parseSpec) after? before?
  simp only [reduceIndexP]
  unfold applyRemovals
  exact lookupRec_filter_ext
    (fun r => !(markedForRemoval (remove.map parseSpec) dependsRm
      (prune.map parseSpec) fnm r))
    hn1 hn2 hext k

/-- Witness for C9: the head-pop and last-pop orders agree on the cycle
index reduction at the key of pkgc-1. -/
theorem reduce_deterministic_witness :
    lookupRec
      (reduceIndexP pick0 fnmatchLit [sdCyc] [] [] [] [] ["pkga ==1"] none none)
      ("s", "pkgc-1") =
    lookupRec
      (reduceIndexP pickLast fnmatchLit [sdCyc] [] [] [] [] ["pkga ==1"]
        none none)
      ("s", "pkgc-1") :=
  reduce_deterministic pick0 pickLast fnmatchLit [sdCyc] [] [] [] []
    ["pkga ==1"] none none (by unfold KeyFunctional; decide) ("s", "pkgc-1")

/-- C10: dependency closure expansion applies no timestamp check: on
the index where tree seed pkga-1 (timestamp 200) depends on pkgb-1
(timestamp 500, outside the window (150, 250)), pkgb-1 reaches the
final working set even though it fails the window. -/
theorem closure_ignores_time_window :
    lookupRec (reduceIndex [sdD] [] [] [] [] ["pkga"] (some 150) (some 250))
      ("s", "pkgb-1") = some d500 ∧
    inWindow (some 150) (some 250) d500 = false := by decide

end CondaSubchannel
